import Mathlib

/-!
Verification of the mortgage overpayment calculator core (the `mortgage`
module of pkrzyw/mortgage_overpay_calculator).

The four pure calculation functions — `annuity_payment`,
`calculate_baseline_interest`, `calculate_shorten_term`,
`calculate_reduce_payment` — are embedded over exact rational arithmetic.
Each `while` loop becomes a fuel-indexed structural recursion: the fuel is
exactly the loop's own iteration bound (`total_months - month` for the
shorten-term loop, `remaining` for the reduce-payment loop), so the
recursion runs precisely the iterations the Python loop runs.
-/

namespace Mortgage

/-- One row of an amortization schedule (the `MonthlyEntry` dataclass):
month index, remaining balance after the month's payment, interest portion,
principal portion, and amount paid above the required installment. -/
structure MonthlyEntry where
  month : ℕ
  balance : ℚ
  interest : ℚ
  principal : ℚ
  overpayment : ℚ
  deriving DecidableEq

/-- Outcome of a repayment strategy simulation (the `StrategyResult`
dataclass): months to full repayment, cumulative interest, the schedule,
and the last bank-required installment. -/
structure StrategyResult where
  months : ℕ
  total_interest : ℚ
  schedule : List MonthlyEntry
  final_installment : ℚ
  deriving DecidableEq

/-- Faithful model of `annuity_payment` (mortgage.py, lines 33-41) on its full
integer-term domain.  `none` models the `ZeroDivisionError` Python raises when
a division by zero is reached (for `rate > 0` this happens exactly when
`(1+rate)^months - 1 = 0`; for `rate <= 0` exactly when `months = 0`). -/
def annuity_payment (principal rate : ℚ) (months : ℤ) : Option ℚ :=
  if rate > 0 then
    let r_pow_n := (1 + rate) ^ months
    if r_pow_n - 1 = 0 then none
    else some (principal * (rate * r_pow_n) / (r_pow_n - 1))
  else if months = 0 then none
  else some (principal / (months : ℚ))

/-- The value `annuity_payment` computes on a natural-number term (the only
way the repository ever calls it); used directly by the simulators.
`annuityF p r m = p * (r * (1+r)^m) / ((1+r)^m - 1)` for `r > 0`, else
`p / m`. -/
def annuityF (principal rate : ℚ) (months : ℕ) : ℚ :=
  if rate > 0 then principal * (rate * (1 + rate) ^ months) / ((1 + rate) ^ months - 1)
  else principal / (months : ℚ)

/-- Loop body iteration of `calculate_baseline_interest` (mortgage.py,
lines 44-59): each period `interest = balance * rate`;
`balance -= base_payment - interest`; interest is accumulated. -/
def baselineGo (r A : ℚ) : ℚ → ℕ → ℚ
  | _, 0 => 0
  | b, m + 1 => b * r + baselineGo r A (b - (A - b * r)) m

/-- `calculate_baseline_interest` (mortgage.py, lines 44-59): total interest
over `total_months` periods of plain amortization at `base_payment`. -/
def calculate_baseline_interest (principal rate base_payment : ℚ)
    (total_months : ℕ) : ℚ :=
  baselineGo rate base_payment principal total_months

/-- The `while balance > 0 and month < total_months` loop of
`calculate_shorten_term` (mortgage.py, lines 80-99).  State: current payment
(mutated by the final-month cap), balance, month counter; fuel
`total_months - month`.  Each iteration: `interest = balance * rate`,
`principal_paid = payment - interest`, the final-month cap clamps
`principal_paid` to `balance` (and sets `payment = balance + interest`),
then the balance shrinks and the entry is recorded with
`overpayment = max 0 (interest + principal_paid - base_payment)`. -/
def shortenGo (r base_payment : ℚ) : ℚ → ℚ → ℕ → ℕ → StrategyResult
  | _, _, month, 0 => ⟨month, 0, [], base_payment⟩
  | pay, b, month, m + 1 =>
    if b > 0 then
      let interest := b * r
      let pp0 := pay - interest
      let pp := if pp0 > b then b else pp0
      let pay2 := if pp0 > b then b + interest else pay
      let b2 := b - pp
      let rest := shortenGo r base_payment pay2 b2 (month + 1) m
      ⟨rest.months, interest + rest.total_interest,
        ⟨month + 1, b2, interest, pp, max 0 (interest + pp - base_payment)⟩ :: rest.schedule,
        base_payment⟩
    else ⟨month, 0, [], base_payment⟩

/-- `calculate_shorten_term` (mortgage.py, lines 62-106): Strategy A, paying
`base_payment + overpayment` each month with the required installment fixed. -/
def calculate_shorten_term (principal rate base_payment overpayment : ℚ)
    (total_months : ℕ) : StrategyResult :=
  shortenGo rate base_payment (base_payment + overpayment) principal 0 total_months

/-- The `while balance > 0 and remaining > 0` loop of
`calculate_reduce_payment` (mortgage.py, lines 129-155).  State: current
required installment, balance, month counter; fuel `remaining`.  Each
iteration pays `installment + overpayment` (with the same final-month cap),
records the entry with `overpayment = max 0 (interest + principal_paid -
current_installment)`, and — when `remaining > 0 and balance > 0` still hold —
recalculates the installment as `annuity_payment(balance, rate, remaining)`. -/
def reduceGo (r overpayment : ℚ) : ℚ → ℚ → ℕ → ℕ → StrategyResult
  | inst, _, month, 0 => ⟨month, 0, [], inst⟩
  | inst, b, month, m + 1 =>
    if b > 0 then
      let interest := b * r
      let pp0 := inst + overpayment - interest
      let pp := if pp0 > b then b else pp0
      let b2 := b - pp
      let inst2 := if m > 0 ∧ b2 > 0 then annuityF b2 r m else inst
      let rest := reduceGo r overpayment inst2 b2 (month + 1) m
      ⟨rest.months, interest + rest.total_interest,
        ⟨month + 1, b2, interest, pp, max 0 (interest + pp - inst)⟩ :: rest.schedule,
        rest.final_installment⟩
    else ⟨month, 0, [], inst⟩

/-- `calculate_reduce_payment` (mortgage.py, lines 109-162): Strategy B,
paying a recalculated installment plus the fixed overpayment each month. -/
def calculate_reduce_payment (principal rate base_payment overpayment : ℚ)
    (total_months : ℕ) : StrategyResult :=
  reduceGo rate overpayment base_payment principal 0 total_months

/-- Geometric sum `gsum r m = 1 + (1+r) + ... + (1+r)^(m-1)` (mathematical
helper for closed forms; not part of the source). -/
def gsum (r : ℚ) : ℕ → ℚ
  | 0 => 0
  | m + 1 => gsum r m + (1 + r) ^ m

/-- Balance after `m` periods of plain amortization at payment `A`
(mathematical helper mirroring the balance update shared by all three
simulation loops). -/
def abal (r A : ℚ) : ℚ → ℕ → ℚ
  | b, 0 => b
  | b, m + 1 => abal r A (b - (A - b * r)) m

/-! ### Closed forms for the annuity formula and the amortization balance -/

theorem gsum_succ (r : ℚ) (m : ℕ) : gsum r (m + 1) = gsum r m + (1 + r) ^ m := rfl

theorem gsum_zero_rate (m : ℕ) : gsum 0 m = m := by
  induction m with
  | zero => rfl
  | succ m ih => rw [gsum_succ, ih]; push_cast; ring

theorem gsum_pos {r : ℚ} (hr : 0 ≤ r) {m : ℕ} (hm : 1 ≤ m) : 0 < gsum r m := by
  induction m with
  | zero => omega
  | succ m ih =>
    rcases Nat.eq_zero_or_pos m with h0 | h1
    · subst h0; simp [gsum]
    · have := ih h1
      have hp : (0 : ℚ) < (1 + r) ^ m := pow_pos (by linarith) m
      rw [gsum_succ]; linarith

theorem r_mul_gsum (r : ℚ) (m : ℕ) : r * gsum r m = (1 + r) ^ m - 1 := by
  induction m with
  | zero => simp [gsum]
  | succ m ih => rw [gsum_succ, pow_succ]; ring_nf; ring_nf at ih; linarith

theorem annuityF_eq {r : ℚ} (hr : 0 ≤ r) (b : ℚ) {m : ℕ} (hm : 1 ≤ m) :
    annuityF b r m = b * (1 + r) ^ m / gsum r m := by
  have hG : 0 < gsum r m := gsum_pos hr hm
  rcases lt_or_eq_of_le hr with hr' | hr'
  · rw [annuityF, if_pos hr']
    have hden : (1 + r) ^ m - 1 = r * gsum r m := (r_mul_gsum r m).symm
    rw [hden]
    rw [div_eq_div_iff (by positivity) (ne_of_gt hG)]
    ring
  · rw [annuityF, if_neg (by rw [← hr']; exact lt_irrefl 0), ← hr', gsum_zero_rate]
    norm_num

theorem annuityF_sub {r : ℚ} (hr : 0 ≤ r) (b : ℚ) {m : ℕ} (hm : 1 ≤ m) :
    annuityF b r m = b * r + b / gsum r m := by
  have hG : gsum r m ≠ 0 := ne_of_gt (gsum_pos hr hm)
  rw [annuityF_eq hr b hm]
  field_simp
  linear_combination (-b) * r_mul_gsum r m

theorem annuityF_pos {r b : ℚ} (hr : 0 ≤ r) (hb : 0 < b) {m : ℕ} (hm : 1 ≤ m) :
    0 < annuityF b r m := by
  rw [annuityF_eq hr b hm]
  have hG : 0 < gsum r m := gsum_pos hr hm
  have : (0 : ℚ) < (1 + r) ^ m := pow_pos (by linarith) m
  positivity

theorem annuityF_le_of_le {r b1 b2 : ℚ} (hr : 0 ≤ r) (h : b1 ≤ b2) {m : ℕ} (hm : 1 ≤ m) :
    annuityF b1 r m ≤ annuityF b2 r m := by
  rw [annuityF_eq hr b1 hm, annuityF_eq hr b2 hm]
  have hG : 0 < gsum r m := gsum_pos hr hm
  have hp : (0 : ℚ) < (1 + r) ^ m := pow_pos (by linarith) m
  exact (div_le_div_iff_of_pos_right hG).mpr (mul_le_mul_of_nonneg_right h hp.le)

theorem annuityF_lt_of_lt {r b1 b2 : ℚ} (hr : 0 ≤ r) (h : b1 < b2) {m : ℕ} (hm : 1 ≤ m) :
    annuityF b1 r m < annuityF b2 r m := by
  rw [annuityF_eq hr b1 hm, annuityF_eq hr b2 hm]
  have hG : 0 < gsum r m := gsum_pos hr hm
  have hp : (0 : ℚ) < (1 + r) ^ m := pow_pos (by linarith) m
  exact (div_lt_div_iff_of_pos_right hG).mpr (mul_lt_mul_of_pos_right h hp)

theorem abal_step (r A b : ℚ) (m : ℕ) :
    abal r A b (m + 1) = abal r A (b - (A - b * r)) m := rfl

theorem abal_eq (r A : ℚ) : ∀ (m : ℕ) (b : ℚ),
    abal r A b m = b * (1 + r) ^ m - A * gsum r m := by
  intro m
  induction m with
  | zero => intro b; simp [abal, gsum]
  | succ m ih =>
    intro b
    rw [abal_step, ih, gsum_succ, pow_succ]
    ring

theorem abal_add (r A : ℚ) : ∀ (j k : ℕ) (b : ℚ),
    abal r A b (j + k) = abal r A (abal r A b j) k := by
  intro j
  induction j with
  | zero => intro k b; rw [Nat.zero_add]; rfl
  | succ j ih =>
    intro k b
    have : j + 1 + k = (j + k) + 1 := by omega
    rw [this, abal_step, ih, ← abal_step]

/-! ### Loop bounds and schedule shape -/

theorem shortenGo_bound (r A : ℚ) : ∀ (m : ℕ) (pay b : ℚ) (month : ℕ),
    (shortenGo r A pay b month m).months ≤ month + m ∧
    (shortenGo r A pay b month m).schedule.length ≤ m := by
  intro m
  induction m with
  | zero => intro pay b month; simp [shortenGo]
  | succ m ih =>
    intro pay b month
    by_cases hb : b > 0
    · by_cases hc : pay - b * r > b
      · simp only [shortenGo, if_pos hb, if_pos hc, List.length_cons]
        obtain ⟨ih1, ih2⟩ := ih (b + b * r) (b - b) (month + 1)
        exact ⟨by omega, by omega⟩
      · simp only [shortenGo, if_pos hb, if_neg hc, List.length_cons]
        obtain ⟨ih1, ih2⟩ := ih pay (b - (pay - b * r)) (month + 1)
        exact ⟨by omega, by omega⟩
    · simp [shortenGo, hb]

theorem reduceGo_bound (r ov : ℚ) : ∀ (m : ℕ) (inst b : ℚ) (month : ℕ),
    (reduceGo r ov inst b month m).months ≤ month + m ∧
    (reduceGo r ov inst b month m).schedule.length ≤ m := by
  intro m
  induction m with
  | zero => intro inst b month; simp [reduceGo]
  | succ m ih =>
    intro inst b month
    by_cases hb : b > 0
    · by_cases hc : inst + ov - b * r > b
      · simp only [reduceGo, if_pos hb, if_pos hc, List.length_cons]
        obtain ⟨ih1, ih2⟩ := ih (if m > 0 ∧ b - b > 0 then annuityF (b - b) r m else inst) (b - b) (month + 1)
        exact ⟨by omega, by omega⟩
      · simp only [reduceGo, if_pos hb, if_neg hc, List.length_cons]
        obtain ⟨ih1, ih2⟩ := ih (if m > 0 ∧ b - (inst + ov - b * r) > 0 then annuityF (b - (inst + ov - b * r)) r m else inst) (b - (inst + ov - b * r)) (month + 1)
        exact ⟨by omega, by omega⟩
    · simp [reduceGo, hb]

theorem reduceGo_months_ge (r ov : ℚ) : ∀ (m : ℕ) (inst b : ℚ) (month : ℕ),
    month ≤ (reduceGo r ov inst b month m).months := by
  intro m
  induction m with
  | zero => intro inst b month; simp [reduceGo]
  | succ m ih =>
    intro inst b month
    by_cases hb : b > 0
    · by_cases hc : inst + ov - b * r > b
      · simp only [reduceGo, if_pos hb, if_pos hc]
        exact le_trans (by omega) (ih (if m > 0 ∧ b - b > 0 then annuityF (b - b) r m else inst) (b - b) (month + 1))
      · simp only [reduceGo, if_pos hb, if_neg hc]
        exact le_trans (by omega) (ih (if m > 0 ∧ b - (inst + ov - b * r) > 0 then annuityF (b - (inst + ov - b * r)) r m else inst) (b - (inst + ov - b * r)) (month + 1))
    · simp [reduceGo, hb]

theorem reduceGo_interest_nonneg {r : ℚ} (hr : 0 ≤ r) (ov : ℚ) :
    ∀ (m : ℕ) (inst b : ℚ) (month : ℕ),
    0 ≤ (reduceGo r ov inst b month m).total_interest := by
  intro m
  induction m with
  | zero => intro inst b month; simp [reduceGo]
  | succ m ih =>
    intro inst b month
    by_cases hb : b > 0
    · have hint : 0 ≤ b * r := mul_nonneg (le_of_lt hb) hr
      by_cases hc : inst + ov - b * r > b
      · simp only [reduceGo, if_pos hb, if_pos hc]
        have := ih (if m > 0 ∧ b - b > 0 then annuityF (b - b) r m else inst) (b - b) (month + 1)
        linarith
      · simp only [reduceGo, if_pos hb, if_neg hc]
        have := ih (if m > 0 ∧ b - (inst + ov - b * r) > 0 then annuityF (b - (inst + ov - b * r)) r m else inst) (b - (inst + ov - b * r)) (month + 1)
        linarith
    · simp [reduceGo, hb]

theorem shortenGo_months_schedule (r A : ℚ) : ∀ (m : ℕ) (pay b : ℚ) (month : ℕ),
    (shortenGo r A pay b month m).months
      = month + (shortenGo r A pay b month m).schedule.length ∧
    (shortenGo r A pay b month m).schedule.map MonthlyEntry.month
      = List.range' (month + 1) (shortenGo r A pay b month m).schedule.length := by
  intro m
  induction m with
  | zero => intro pay b month; simp [shortenGo]
  | succ m ih =>
    intro pay b month
    by_cases hb : b > 0
    · by_cases hc : pay - b * r > b
      · simp only [shortenGo, if_pos hb, if_pos hc, List.length_cons, List.map_cons]
        obtain ⟨ih1, ih2⟩ := ih (b + b * r) (b - b) (month + 1)
        refine ⟨by omega, ?_⟩
        rw [List.range'_succ, ih2]
      · simp only [shortenGo, if_pos hb, if_neg hc, List.length_cons, List.map_cons]
        obtain ⟨ih1, ih2⟩ := ih pay (b - (pay - b * r)) (month + 1)
        refine ⟨by omega, ?_⟩
        rw [List.range'_succ, ih2]
    · simp [shortenGo, hb]

theorem reduceGo_months_schedule (r ov : ℚ) : ∀ (m : ℕ) (inst b : ℚ) (month : ℕ),
    (reduceGo r ov inst b month m).months
      = month + (reduceGo r ov inst b month m).schedule.length ∧
    (reduceGo r ov inst b month m).schedule.map MonthlyEntry.month
      = List.range' (month + 1) (reduceGo r ov inst b month m).schedule.length := by
  intro m
  induction m with
  | zero => intro inst b month; simp [reduceGo]
  | succ m ih =>
    intro inst b month
    by_cases hb : b > 0
    · by_cases hc : inst + ov - b * r > b
      · simp only [reduceGo, if_pos hb, if_pos hc, List.length_cons, List.map_cons]
        obtain ⟨ih1, ih2⟩ := ih (if m > 0 ∧ b - b > 0 then annuityF (b - b) r m else inst) (b - b) (month + 1)
        refine ⟨by omega, ?_⟩
        rw [List.range'_succ, ih2]
      · simp only [reduceGo, if_pos hb, if_neg hc, List.length_cons, List.map_cons]
        obtain ⟨ih1, ih2⟩ := ih (if m > 0 ∧ b - (inst + ov - b * r) > 0 then annuityF (b - (inst + ov - b * r)) r m else inst) (b - (inst + ov - b * r)) (month + 1)
        refine ⟨by omega, ?_⟩
        rw [List.range'_succ, ih2]
    · simp [reduceGo, hb]

/-- C7: for every input whatsoever — adversarial ones included — both
strategy loops stop after at most `total_months` iterations: the returned
`months` and the schedule length are each at most `total_months`. -/
theorem claim_C7_termination (principal rate base_payment overpayment : ℚ)
    (total_months : ℕ) :
    (calculate_shorten_term principal rate base_payment overpayment total_months).months
        ≤ total_months ∧
    (calculate_shorten_term principal rate base_payment overpayment total_months).schedule.length
        ≤ total_months ∧
    (calculate_reduce_payment principal rate base_payment overpayment total_months).months
        ≤ total_months ∧
    (calculate_reduce_payment principal rate base_payment overpayment total_months).schedule.length
        ≤ total_months := by
  obtain ⟨h1, h2⟩ := shortenGo_bound rate base_payment total_months
    (base_payment + overpayment) principal 0
  obtain ⟨h3, h4⟩ := reduceGo_bound rate overpayment total_months
    base_payment principal 0
  exact ⟨by simpa [calculate_shorten_term] using h1, h2,
    by simpa [calculate_reduce_payment] using h3, h4⟩

/-- C9: for every input, each returned `StrategyResult` has `months` equal to
the length of its schedule, and the `month` fields are 1-based, sequential
and gap-free (the list of month fields is `[1, 2, ..., length]`). -/
theorem claim_C9_schedule_indexing (principal rate base_payment overpayment : ℚ)
    (total_months : ℕ) :
    ((calculate_shorten_term principal rate base_payment overpayment total_months).months
        = (calculate_shorten_term principal rate base_payment overpayment total_months).schedule.length ∧
      (calculate_shorten_term principal rate base_payment overpayment total_months).schedule.map
          MonthlyEntry.month
        = List.range' 1
            (calculate_shorten_term principal rate base_payment overpayment total_months).schedule.length) ∧
    ((calculate_reduce_payment principal rate base_payment overpayment total_months).months
        = (calculate_reduce_payment principal rate base_payment overpayment total_months).schedule.length ∧
      (calculate_reduce_payment principal rate base_payment overpayment total_months).schedule.map
          MonthlyEntry.month
        = List.range' 1
            (calculate_reduce_payment principal rate base_payment overpayment total_months).schedule.length) := by
  obtain ⟨h1, h2⟩ := shortenGo_months_schedule rate base_payment total_months
    (base_payment + overpayment) principal 0
  obtain ⟨h3, h4⟩ := reduceGo_months_schedule rate overpayment total_months
    base_payment principal 0
  exact ⟨⟨by simpa [calculate_shorten_term] using h1, h2⟩,
    ⟨by simpa [calculate_reduce_payment] using h3, h4⟩⟩

/-- C10: a non-positive principal makes both loops exit immediately: the
result is `months = 0`, an empty schedule, `total_interest = 0` and
`final_installment = base_payment` — no `InvalidAmount` error is raised. -/
theorem claim_C10_nonpositive_principal (principal rate base_payment overpayment : ℚ)
    (total_months : ℕ) (hP : principal ≤ 0) :
    calculate_shorten_term principal rate base_payment overpayment total_months
        = ⟨0, 0, [], base_payment⟩ ∧
    calculate_reduce_payment principal rate base_payment overpayment total_months
        = ⟨0, 0, [], base_payment⟩ := by
  have hP' : ¬ principal > 0 := not_lt.mpr hP
  cases total_months with
  | zero => exact ⟨rfl, rfl⟩
  | succ m =>
    constructor
    · show shortenGo _ _ _ _ _ _ = _
      rw [shortenGo, if_neg hP']
    · show reduceGo _ _ _ _ _ _ = _
      rw [reduceGo, if_neg hP']

/-- Witness for C10 at principal 0. -/
theorem claim_C10_witness :
    (0 : ℚ) ≤ 0 ∧
    calculate_shorten_term 0 1 5 2 3 = ⟨0, 0, [], 5⟩ ∧
    calculate_reduce_payment 0 1 5 2 3 = ⟨0, 0, [], 5⟩ :=
  ⟨le_refl 0, (claim_C10_nonpositive_principal 0 1 5 2 3 (le_refl 0)).1,
    (claim_C10_nonpositive_principal 0 1 5 2 3 (le_refl 0)).2⟩

/-! ### The baseline simulation and its closed form -/

theorem baselineGo_eq (r A : ℚ) : ∀ (m : ℕ) (b : ℚ),
    baselineGo r A b m = b * (1 + r) ^ m - A * gsum r m - b + m * A := by
  intro m
  induction m with
  | zero => intro b; simp [baselineGo, gsum]
  | succ m ih =>
    intro b
    rw [baselineGo, ih, gsum_succ, pow_succ]
    push_cast
    ring

/-- On a positive term, the faithful `annuity_payment` model returns exactly
the total value `annuityF` the simulators use. -/
theorem annuity_payment_of_pos (p r : ℚ) (hr : 0 ≤ r) (n : ℕ) (hn : 1 ≤ n) :
    annuity_payment p r (n : ℤ) = some (annuityF p r n) := by
  rcases lt_or_eq_of_le hr with hr' | hr'
  · have hpow : (1 + r) ^ (n : ℤ) = (1 + r) ^ n := zpow_natCast _ n
    have h1 : (1 : ℚ) < (1 + r) ^ n := one_lt_pow₀ (by linarith) (by omega)
    rw [annuity_payment, if_pos hr', annuityF, if_pos hr']
    simp only [hpow]
    rw [if_neg (by intro h; linarith [sub_eq_zero.mp h])]
  · have hr0 : ¬ r > 0 := by rw [← hr']; exact lt_irrefl 0
    have hn0 : ¬ (n : ℤ) = 0 := by exact_mod_cast (by omega : ¬ n = 0)
    rw [annuity_payment, if_neg hr0, if_neg hn0, annuityF, if_neg hr0]
    norm_cast

/-- C3: with `base_payment = annuity_payment(principal, rate, n)`, the
iterative baseline simulation reproduces the closed-form total interest
`base_payment * n - principal` exactly (over exact arithmetic). -/
theorem claim_C3_baseline_closed_form (P r : ℚ) (n : ℕ)
    (hP : 0 < P) (hr : 0 ≤ r) (hn : 1 ≤ n) :
    calculate_baseline_interest P r (annuityF P r n) n = annuityF P r n * n - P := by
  have hG : gsum r n ≠ 0 := ne_of_gt (gsum_pos hr hn)
  have hAG : annuityF P r n * gsum r n = P * (1 + r) ^ n := by
    rw [annuityF_eq hr P hn, div_mul_cancel₀ _ hG]
  rw [calculate_baseline_interest, baselineGo_eq]
  linear_combination -hAG

/-- Witness for C3 at principal 100, rate 1, term 1 (payment 200, interest 100). -/
theorem claim_C3_witness :
    (0 : ℚ) < 100 ∧ (0 : ℚ) ≤ 1 ∧ 1 ≤ 1 ∧
    calculate_baseline_interest 100 1 (annuityF 100 1 1) 1 = annuityF 100 1 1 * 1 - 100 := by
  have h1 : (0 : ℚ) < 100 := by norm_num
  have h2 : (0 : ℚ) ≤ 1 := by norm_num
  exact ⟨h1, h2, le_refl 1, claim_C3_baseline_closed_form 100 1 1 h1 h2 (le_refl 1)⟩

/-! ### Error behavior of the annuity formula on non-positive terms -/

/-- C6 counterexample: with term `-1` (a term `≤ 0`), `annuity_payment` does
not fail at all — it silently returns a value, so the claimed fail-fast
`InvalidTerm` guard does not exist in the code. -/
theorem claim_C6_counterexample : annuity_payment 100 0 (-1) ≠ none := by
  have h : annuity_payment 100 0 (-1) = some (-100) := by norm_num [annuity_payment]
  rw [h]
  exact Option.some_ne_none _

/-- C6 (amended): `annuity_payment` has no term guard.  With term `= 0` it
errors only because it reaches a division by zero inside the formula
(modelled as `none`), and with a negative term it silently returns a
computed value — e.g. `-100` for principal 100, rate 0, term `-1` — rather
than failing fast with an `InvalidTerm`-style error. -/
theorem claim_C6_amended_no_guard :
    (∀ p r : ℚ, annuity_payment p r 0 = none) ∧
    annuity_payment 100 0 (-1) = some (-100) := by
  constructor
  · intro p r
    by_cases hr : r > 0
    · simp [annuity_payment, hr]
    · simp [annuity_payment, hr]
  · norm_num [annuity_payment]

/-! ### Recorded overpayment fields -/

theorem shortenGo_overpayment_formula (r A : ℚ) : ∀ (m : ℕ) (pay b : ℚ) (month : ℕ),
    ∀ e ∈ (shortenGo r A pay b month m).schedule,
      e.overpayment = max 0 (e.interest + e.principal - A) := by
  intro m
  induction m with
  | zero => intro pay b month; simp [shortenGo]
  | succ m ih =>
    intro pay b month
    by_cases hb : b > 0
    · by_cases hc : pay - b * r > b
      · simp only [shortenGo, if_pos hb, if_pos hc]
        intro e he
        rcases List.mem_cons.mp he with rfl | he'
        · rfl
        · exact ih (b + b * r) (b - b) (month + 1) e he'
      · simp only [shortenGo, if_pos hb, if_neg hc]
        intro e he
        rcases List.mem_cons.mp he with rfl | he'
        · rfl
        · exact ih pay (b - (pay - b * r)) (month + 1) e he'
    · simp [shortenGo, hb]

theorem reduceGo_overpayment_nonneg (r ov : ℚ) : ∀ (m : ℕ) (inst b : ℚ) (month : ℕ),
    ∀ e ∈ (reduceGo r ov inst b month m).schedule, 0 ≤ e.overpayment := by
  intro m
  induction m with
  | zero => intro inst b month; simp [reduceGo]
  | succ m ih =>
    intro inst b month
    by_cases hb : b > 0
    · by_cases hc : inst + ov - b * r > b
      · simp only [reduceGo, if_pos hb, if_pos hc]
        intro e he
        rcases List.mem_cons.mp he with rfl | he'
        · exact le_max_left 0 _
        · exact ih (if m > 0 ∧ b - b > 0 then annuityF (b - b) r m else inst)
            (b - b) (month + 1) e he'
      · simp only [reduceGo, if_pos hb, if_neg hc]
        intro e he
        rcases List.mem_cons.mp he with rfl | he'
        · exact le_max_left 0 _
        · exact ih (if m > 0 ∧ b - (inst + ov - b * r) > 0
              then annuityF (b - (inst + ov - b * r)) r m else inst)
            (b - (inst + ov - b * r)) (month + 1) e he'
    · simp [reduceGo, hb]

/-- Every reduce-payment entry records
`max 0 (interest + principal_paid - current_installment)`, where the
installment in effect for the entry's period is `annuityF` of the period's
opening balance (`e.balance + e.principal`) over the period's remaining term
(`total + 1 - e.month` for a loop whose month counter plus fuel is `total`).
The hypothesis is the reachable-state invariant: the installment entering a
period equals the annuity payment of the current balance over the current
remaining term, which holds at the initial call (when `base_payment` is the
annuity payment of the principal) and is re-established by the line-155
recalculation. -/
theorem reduceGo_overpayment_formula {r : ℚ} (hr : 0 ≤ r) (ov : ℚ) :
    ∀ (m : ℕ) (inst b : ℚ) (month total : ℕ), total = month + m →
      (0 < b → 1 ≤ m → inst = annuityF b r m) →
      ∀ e ∈ (reduceGo r ov inst b month m).schedule,
        e.overpayment = max 0 (e.interest + e.principal
          - annuityF (e.balance + e.principal) r (total + 1 - e.month)) := by
  intro m
  induction m with
  | zero => intro inst b month total _ _; simp [reduceGo]
  | succ m ih =>
    intro inst b month total htot hinv
    by_cases hb : b > 0
    · have hiv : inst = annuityF b r (m + 1) := hinv hb (by omega)
      by_cases hc : inst + ov - b * r > b
      · simp only [reduceGo, if_pos hb, if_pos hc]
        intro e he
        rcases List.mem_cons.mp he with rfl | he'
        · dsimp only
          have hb' : b - b + b = b := by ring
          have hnat : total + 1 - (month + 1) = m + 1 := by omega
          rw [hb', hnat, ← hiv]
        · exact ih (if m > 0 ∧ b - b > 0 then annuityF (b - b) r m else inst)
            (b - b) (month + 1) total (by omega)
            (by intro h _; linarith) e he'
      · simp only [reduceGo, if_pos hb, if_neg hc]
        intro e he
        rcases List.mem_cons.mp he with rfl | he'
        · dsimp only
          have hb' : b - (inst + ov - b * r) + (inst + ov - b * r) = b := by ring
          have hnat : total + 1 - (month + 1) = m + 1 := by omega
          rw [hb', hnat, ← hiv]
        · exact ih (if m > 0 ∧ b - (inst + ov - b * r) > 0
              then annuityF (b - (inst + ov - b * r)) r m else inst)
            (b - (inst + ov - b * r)) (month + 1) total (by omega)
            (by intro h1 h2; rw [if_pos ⟨by omega, h1⟩]) e he'
    · simp [reduceGo, hb]

/-- C8: with `base_payment = annuity_payment(principal, rate, n)`,
overpayment `> 0` and the first period not hitting the final-period cap, the
first schedule entry of `calculate_shorten_term` records exactly the
configured overpayment; every entry of both simulators records
`max 0 (interest + principal_paid - required installment)` — for
shorten-term the required installment is the fixed `base_payment`, and for
reduce-payment it is the installment in effect for the entry's period,
namely the annuity payment of the period's opening balance
(`e.balance + e.principal`) over its remaining term (`n + 1 - e.month`) —
and consequently every recorded overpayment in both simulators is
non-negative. -/
theorem claim_C8_overpayment_fields (P r ov : ℚ) (n : ℕ)
    (hP : 0 < P) (hr : 0 ≤ r) (hov : 0 < ov) (hn : 1 ≤ n)
    (hcap : annuityF P r n + ov - P * r ≤ P) :
    ((calculate_shorten_term P r (annuityF P r n) ov n).schedule.head?.map
        MonthlyEntry.overpayment = some ov) ∧
    (∀ e ∈ (calculate_shorten_term P r (annuityF P r n) ov n).schedule,
        e.overpayment = max 0 (e.interest + e.principal - annuityF P r n)) ∧
    (∀ e ∈ (calculate_reduce_payment P r (annuityF P r n) ov n).schedule,
        e.overpayment = max 0 (e.interest + e.principal
          - annuityF (e.balance + e.principal) r (n + 1 - e.month))) ∧
    (∀ e ∈ (calculate_shorten_term P r (annuityF P r n) ov n).schedule,
        0 ≤ e.overpayment) ∧
    (∀ e ∈ (calculate_reduce_payment P r (annuityF P r n) ov n).schedule,
        0 ≤ e.overpayment) := by
  refine ⟨?_, ?_, ?_, ?_, ?_⟩
  · obtain ⟨k, rfl⟩ : ∃ k, n = k + 1 := ⟨n - 1, by omega⟩
    have hc : ¬ (annuityF P r (k + 1) + ov - P * r > P) := not_lt.mpr hcap
    rw [calculate_shorten_term]
    simp only [shortenGo, if_pos hP, if_neg hc, List.head?_cons, Option.map_some']
    have harith : P * r + (annuityF P r (k + 1) + ov - P * r) - annuityF P r (k + 1) = ov := by
      ring
    show some (max 0 (P * r + (annuityF P r (k + 1) + ov - P * r) - annuityF P r (k + 1)))
        = some ov
    rw [harith, max_eq_right hov.le]
  · exact shortenGo_overpayment_formula r (annuityF P r n) n (annuityF P r n + ov) P 0
  · exact reduceGo_overpayment_formula hr ov n (annuityF P r n) P 0 n (by omega)
      (fun _ _ => rfl)
  · intro e he
    rw [shortenGo_overpayment_formula r (annuityF P r n) n (annuityF P r n + ov) P 0 e he]
    exact le_max_left 0 _
  · exact reduceGo_overpayment_nonneg r ov n (annuityF P r n) P 0

/-- Witness for C8 at principal 100, rate 0, overpayment 10, term 2
(base payment 50; the first period is not capped since 60 ≤ 100). -/
theorem claim_C8_witness :
    (0 : ℚ) < 100 ∧ (0 : ℚ) ≤ 0 ∧ (0 : ℚ) < 10 ∧ 1 ≤ 2 ∧
    annuityF 100 0 2 + 10 - 100 * 0 ≤ 100 ∧
    ((calculate_shorten_term 100 0 (annuityF 100 0 2) 10 2).schedule.head?.map
        MonthlyEntry.overpayment = some 10) := by
  have h1 : (0 : ℚ) < 100 := by norm_num
  have h2 : (0 : ℚ) ≤ 0 := le_refl 0
  have h3 : (0 : ℚ) < 10 := by norm_num
  have h4 : 1 ≤ 2 := by omega
  have h5 : annuityF 100 0 2 + 10 - 100 * 0 ≤ 100 := by norm_num [annuityF]
  exact ⟨h1, h2, h3, h4, h5,
    (claim_C8_overpayment_fields 100 0 10 2 h1 h2 h3 h4 h5).1⟩

/-! ### Balance non-negativity and monotonicity -/

theorem shortenGo_balances (r A P : ℚ) (hr : 0 ≤ r) :
    ∀ (m : ℕ) (pay b : ℚ) (month : ℕ), 0 ≤ b → b ≤ P →
      (0 < b → P * r ≤ pay) →
      (∀ e ∈ (shortenGo r A pay b month m).schedule, 0 ≤ e.balance ∧ e.balance ≤ b) ∧
      List.Chain' (fun e1 e2 => e2.balance ≤ e1.balance)
        (shortenGo r A pay b month m).schedule := by
  intro m
  induction m with
  | zero => intro pay b month _ _ _; simp [shortenGo]
  | succ m ih =>
    intro pay b month hb0 hbP hpay
    by_cases hb : b > 0
    · have hbr : b * r ≤ pay := le_trans (mul_le_mul_of_nonneg_right hbP hr) (hpay hb)
      by_cases hc : pay - b * r > b
      · simp only [shortenGo, if_pos hb, if_pos hc]
        obtain ⟨ihAll, ihChain⟩ := ih (b + b * r) (b - b) (month + 1)
          (by linarith) (by linarith) (by intro h; linarith)
        constructor
        · intro e he
          rcases List.mem_cons.mp he with rfl | he'
          · dsimp only
            exact ⟨by linarith, by linarith⟩
          · obtain ⟨h1, h2⟩ := ihAll e he'
            exact ⟨h1, by linarith⟩
        · refine List.chain'_cons'.mpr ⟨?_, ihChain⟩
          intro e he
          exact (ihAll e (List.mem_of_mem_head? he)).2
      · have hpp : 0 ≤ pay - b * r := by linarith
        have hb2 : 0 ≤ b - (pay - b * r) := by linarith [not_lt.mp hc]
        simp only [shortenGo, if_pos hb, if_neg hc]
        obtain ⟨ihAll, ihChain⟩ := ih pay (b - (pay - b * r)) (month + 1)
          hb2 (by linarith) (by intro _; exact hpay hb)
        constructor
        · intro e he
          rcases List.mem_cons.mp he with rfl | he'
          · dsimp only
            exact ⟨hb2, by linarith⟩
          · obtain ⟨h1, h2⟩ := ihAll e he'
            exact ⟨h1, by linarith⟩
        · refine List.chain'_cons'.mpr ⟨?_, ihChain⟩
          intro e he
          exact (ihAll e (List.mem_of_mem_head? he)).2
    · simp [shortenGo, hb]

theorem reduceGo_balances (r ov : ℚ) (hr : 0 ≤ r) (hov : 0 ≤ ov) :
    ∀ (m : ℕ) (inst b : ℚ) (month : ℕ), 0 ≤ b →
      (0 < b → 1 ≤ m → inst = annuityF b r m) →
      (∀ e ∈ (reduceGo r ov inst b month m).schedule, 0 ≤ e.balance ∧ e.balance ≤ b) ∧
      List.Chain' (fun e1 e2 => e2.balance ≤ e1.balance)
        (reduceGo r ov inst b month m).schedule := by
  intro m
  induction m with
  | zero => intro inst b month _ _; simp [reduceGo]
  | succ m ih =>
    intro inst b month hb0 hinst
    by_cases hb : b > 0
    · have hiv : inst = annuityF b r (m + 1) := hinst hb (by omega)
      have hG : 0 < gsum r (m + 1) := gsum_pos hr (by omega)
      have hsub : annuityF b r (m + 1) = b * r + b / gsum r (m + 1) :=
        annuityF_sub hr b (by omega)
      have hdiv : 0 < b / gsum r (m + 1) := div_pos hb hG
      have hpp : 0 ≤ inst + ov - b * r := by rw [hiv, hsub]; linarith
      by_cases hc : inst + ov - b * r > b
      · simp only [reduceGo, if_pos hb, if_pos hc]
        obtain ⟨ihAll, ihChain⟩ := ih
          (if m > 0 ∧ b - b > 0 then annuityF (b - b) r m else inst) (b - b) (month + 1)
          (by linarith) (by intro h _; linarith)
        constructor
        · intro e he
          rcases List.mem_cons.mp he with rfl | he'
          · dsimp only
            exact ⟨by linarith, by linarith⟩
          · obtain ⟨h1, h2⟩ := ihAll e he'
            exact ⟨h1, by linarith⟩
        · refine List.chain'_cons'.mpr ⟨?_, ihChain⟩
          intro e he
          exact (ihAll e (List.mem_of_mem_head? he)).2
      · have hb2 : 0 ≤ b - (inst + ov - b * r) := by linarith [not_lt.mp hc]
        simp only [reduceGo, if_pos hb, if_neg hc]
        obtain ⟨ihAll, ihChain⟩ := ih
          (if m > 0 ∧ b - (inst + ov - b * r) > 0
            then annuityF (b - (inst + ov - b * r)) r m else inst)
          (b - (inst + ov - b * r)) (month + 1) hb2
          (by intro h1 h2; rw [if_pos ⟨by omega, h1⟩])
        constructor
        · intro e he
          rcases List.mem_cons.mp he with rfl | he'
          · dsimp only
            exact ⟨hb2, by linarith⟩
          · obtain ⟨h1, h2⟩ := ihAll e he'
            exact ⟨h1, by linarith⟩
        · refine List.chain'_cons'.mpr ⟨?_, ihChain⟩
          intro e he
          exact (ihAll e (List.mem_of_mem_head? he)).2
    · simp [reduceGo, hb]

/-- C4: with valid inputs (`principal > 0`, `rate ≥ 0`, `overpayment ≥ 0`,
`base_payment = annuity_payment(principal, rate, n)`), every schedule entry of
both simulators has a non-negative balance, and the balances are monotonically
non-increasing along the schedule — the final-period clamp keeps the balance
from ever going below zero. -/
theorem claim_C4_balance_invariants (P r ov : ℚ) (n : ℕ)
    (hP : 0 < P) (hr : 0 ≤ r) (hov : 0 ≤ ov) (hn : 1 ≤ n) :
    ((∀ e ∈ (calculate_shorten_term P r (annuityF P r n) ov n).schedule, 0 ≤ e.balance) ∧
      List.Chain' (fun e1 e2 => e2.balance ≤ e1.balance)
        (calculate_shorten_term P r (annuityF P r n) ov n).schedule) ∧
    ((∀ e ∈ (calculate_reduce_payment P r (annuityF P r n) ov n).schedule, 0 ≤ e.balance) ∧
      List.Chain' (fun e1 e2 => e2.balance ≤ e1.balance)
        (calculate_reduce_payment P r (annuityF P r n) ov n).schedule) := by
  have hG : 0 < gsum r n := gsum_pos hr hn
  have hsub : annuityF P r n = P * r + P / gsum r n := annuityF_sub hr P hn
  have hdiv : 0 < P / gsum r n := div_pos hP hG
  have hpay : 0 < P → P * r ≤ annuityF P r n + ov := by intro _; rw [hsub]; linarith
  obtain ⟨h1, h2⟩ := shortenGo_balances r (annuityF P r n) P hr n
    (annuityF P r n + ov) P 0 hP.le (le_refl P) hpay
  obtain ⟨h3, h4⟩ := reduceGo_balances r ov hr hov n (annuityF P r n) P 0 hP.le
    (by intro _ _; rfl)
  exact ⟨⟨fun e he => (h1 e he).1, h2⟩, ⟨fun e he => (h3 e he).1, h4⟩⟩

/-- Witness for C4 at principal 100, rate 0, overpayment 10, term 2. -/
theorem claim_C4_witness :
    (0 : ℚ) < 100 ∧ (0 : ℚ) ≤ 0 ∧ (0 : ℚ) ≤ 10 ∧ 1 ≤ 2 ∧
    (∀ e ∈ (calculate_shorten_term 100 0 (annuityF 100 0 2) 10 2).schedule,
      0 ≤ e.balance) := by
  have h1 : (0 : ℚ) < 100 := by norm_num
  have h2 : (0 : ℚ) ≤ 0 := le_refl 0
  have h3 : (0 : ℚ) ≤ 10 := by norm_num
  have h4 : 1 ≤ 2 := by omega
  exact ⟨h1, h2, h3, h4, (claim_C4_balance_invariants 100 0 10 2 h1 h2 h3 h4).1.1⟩

/-! ### Exact amortization: the annuity payment drives the balance to zero -/

theorem abal_zero_annuity {r : ℚ} (hr : 0 ≤ r) (b : ℚ) {m : ℕ} (hm : 1 ≤ m) :
    abal r (annuityF b r m) b m = 0 := by
  have hG : gsum r m ≠ 0 := ne_of_gt (gsum_pos hr hm)
  rw [abal_eq, annuityF_eq hr b hm]
  field_simp

theorem annuityF_of_abal_zero {r I b : ℚ} (hr : 0 ≤ r) {m : ℕ} (hm : 1 ≤ m)
    (hz : abal r I b m = 0) : annuityF b r m = I := by
  have hG : 0 < gsum r m := gsum_pos hr hm
  rw [abal_eq] at hz
  rw [annuityF_eq hr b hm, div_eq_iff (ne_of_gt hG)]
  linarith

theorem abal_neg {r A : ℚ} (hr : 0 ≤ r) (hA : 0 < A) :
    ∀ (j : ℕ) (b : ℚ), b ≤ 0 → abal r A b (j + 1) < 0 := by
  intro j
  induction j with
  | zero =>
    intro b hb
    have hbr : b * r ≤ 0 := mul_nonpos_of_nonpos_of_nonneg hb hr
    show b - (A - b * r) < 0
    linarith
  | succ j ih =>
    intro b hb
    have hbr : b * r ≤ 0 := mul_nonpos_of_nonpos_of_nonneg hb hr
    have hstep : b - (A - b * r) ≤ 0 := by linarith
    exact ih (b - (A - b * r)) hstep

theorem abal_pos_of_zero {r A : ℚ} (hr : 0 ≤ r) (hA : 0 < A) {b : ℚ} {m : ℕ}
    (hz : abal r A b m = 0) : ∀ k, k < m → 0 < abal r A b k := by
  intro k hk
  by_contra h
  push_neg at h
  have hsplit : m = k + (m - k - 1 + 1) := by omega
  rw [hsplit, abal_add] at hz
  exact absurd hz (ne_of_lt (abal_neg hr hA (m - k - 1) (abal r A b k) h))

theorem shortenGo_exact {r A : ℚ} (hr : 0 ≤ r) (hA : 0 < A) :
    ∀ (m : ℕ) (b : ℚ) (month : ℕ),
      (∀ k, k < m → 0 < abal r A b k) → abal r A b m = 0 →
      (shortenGo r A A b month m).months = month + m ∧
      (shortenGo r A A b month m).total_interest = baselineGo r A b m := by
  intro m
  induction m with
  | zero => intro b month _ _; exact ⟨rfl, rfl⟩
  | succ m ih =>
    intro b month hpos hz
    have hb : b > 0 := hpos 0 (by omega)
    have habal1 : abal r A b 1 = b - (A - b * r) := rfl
    have hb1 : 0 ≤ abal r A b 1 := by
      rcases Nat.eq_zero_or_pos m with rfl | hm'
      · exact le_of_eq hz.symm
      · exact le_of_lt (hpos 1 (by omega))
    have hc : ¬ (A - b * r > b) := by rw [habal1] at hb1; linarith
    simp only [shortenGo, if_pos hb, if_neg hc]
    obtain ⟨ih1, ih2⟩ := ih (b - (A - b * r)) (month + 1)
      (fun k hk => hpos (k + 1) (by omega)) hz
    refine ⟨by rw [ih1]; omega, ?_⟩
    show b * r + _ = b * r + baselineGo r A (b - (A - b * r)) m
    rw [ih2]

theorem reduceGo_exact {r : ℚ} (hr : 0 ≤ r) :
    ∀ (m : ℕ) (I b : ℚ) (month : ℕ), 0 < I →
      (∀ k, k < m → 0 < abal r I b k) → abal r I b m = 0 →
      (reduceGo r 0 I b month m).months = month + m ∧
      (reduceGo r 0 I b month m).total_interest = baselineGo r I b m := by
  intro m
  induction m with
  | zero => intro I b month _ _ _; exact ⟨rfl, rfl⟩
  | succ m ih =>
    intro I b month hI hpos hz
    have hb : b > 0 := hpos 0 (by omega)
    have habal1 : abal r I b 1 = b - (I - b * r) := rfl
    have hb1 : 0 ≤ abal r I b 1 := by
      rcases Nat.eq_zero_or_pos m with rfl | hm'
      · exact le_of_eq hz.symm
      · exact le_of_lt (hpos 1 (by omega))
    have hc : ¬ (I - b * r > b) := by rw [habal1] at hb1; linarith
    simp only [reduceGo, if_pos hb, add_zero, if_neg hc]
    rcases Nat.eq_zero_or_pos m with rfl | hm'
    · constructor
      · simp only [reduceGo]
      · simp only [reduceGo, baselineGo]
    · have hb2 : b - (I - b * r) > 0 := by rw [← habal1]; exact hpos 1 (by omega)
      have hz' : abal r I (b - (I - b * r)) m = 0 := by
        have h1m := abal_add r I 1 m b
        rw [show 1 + m = m + 1 from by omega] at h1m
        exact h1m.symm.trans hz
      have hinst : annuityF (b - (I - b * r)) r m = I :=
        annuityF_of_abal_zero hr hm' hz'
      rw [if_pos ⟨hm', hb2⟩, hinst]
      obtain ⟨ih1, ih2⟩ := ih I (b - (I - b * r)) (month + 1) hI
        (fun k hk => hpos (k + 1) (by omega)) hz
      refine ⟨by rw [ih1]; omega, ?_⟩
      show b * r + _ = b * r + baselineGo r I (b - (I - b * r)) m
      rw [ih2]

/-- C1: with `base_payment = annuity_payment(principal, rate, n)` and
overpayment `0`, both `calculate_shorten_term` and `calculate_reduce_payment`
run exactly `n` months and accrue exactly the baseline total interest
`calculate_baseline_interest(principal, rate, base_payment, n)` (exact
equality over the rational-arithmetic embedding). -/
theorem claim_C1_zero_overpayment_identity (P r : ℚ) (n : ℕ)
    (hP : 0 < P) (hr : 0 ≤ r) (hn : 1 ≤ n) :
    (calculate_shorten_term P r (annuityF P r n) 0 n).months = n ∧
    (calculate_shorten_term P r (annuityF P r n) 0 n).total_interest
      = calculate_baseline_interest P r (annuityF P r n) n ∧
    (calculate_reduce_payment P r (annuityF P r n) 0 n).months = n ∧
    (calculate_reduce_payment P r (annuityF P r n) 0 n).total_interest
      = calculate_baseline_interest P r (annuityF P r n) n := by
  have hA : 0 < annuityF P r n := annuityF_pos hr hP hn
  have hz : abal r (annuityF P r n) P n = 0 := abal_zero_annuity hr P hn
  have hpos := abal_pos_of_zero hr hA hz
  obtain ⟨s1, s2⟩ := shortenGo_exact hr hA n P 0 hpos hz
  obtain ⟨t1, t2⟩ := reduceGo_exact hr n (annuityF P r n) P 0 hA hpos hz
  have hpay : annuityF P r n + 0 = annuityF P r n := add_zero _
  refine ⟨?_, ?_, ?_, ?_⟩
  · rw [calculate_shorten_term, hpay, s1]; omega
  · rw [calculate_shorten_term, hpay, s2, calculate_baseline_interest]
  · rw [calculate_reduce_payment, t1]; omega
  · rw [calculate_reduce_payment, t2, calculate_baseline_interest]

/-- Witness for C1 at principal 100, rate 1, term 2. -/
theorem claim_C1_witness :
    (0 : ℚ) < 100 ∧ (0 : ℚ) ≤ 1 ∧ 1 ≤ 2 ∧
    ((calculate_shorten_term 100 1 (annuityF 100 1 2) 0 2).months = 2 ∧
      (calculate_shorten_term 100 1 (annuityF 100 1 2) 0 2).total_interest
        = calculate_baseline_interest 100 1 (annuityF 100 1 2) 2 ∧
      (calculate_reduce_payment 100 1 (annuityF 100 1 2) 0 2).months = 2 ∧
      (calculate_reduce_payment 100 1 (annuityF 100 1 2) 0 2).total_interest
        = calculate_baseline_interest 100 1 (annuityF 100 1 2) 2) := by
  have h1 : (0 : ℚ) < 100 := by norm_num
  have h2 : (0 : ℚ) ≤ 1 := by norm_num
  have h3 : 1 ≤ 2 := by omega
  exact ⟨h1, h2, h3, claim_C1_zero_overpayment_identity 100 1 2 h1 h2 h3⟩

/-! ### Installment recalculation -/

/-- Paying exactly the current annuity installment for one period and
recalculating over the remaining term reproduces the same installment. -/
theorem annuityF_step {r : ℚ} (hr : 0 ≤ r) (b : ℚ) {m : ℕ} (hm : 1 ≤ m) :
    annuityF (b - (annuityF b r (m + 1) - b * r)) r m = annuityF b r (m + 1) := by
  apply annuityF_of_abal_zero hr hm
  exact @abal_zero_annuity r hr b (m + 1) (by omega)

/-- C5: in the reduce-payment loop, consider a period that starts with
balance `b > 0`, remaining term `m + 1` (with `m ≥ 1` periods left after this
one), and the installment in effect `annuityF b r (m+1)` — which is what the
installment equals at every reachable loop state, being `base_payment =
annuity_payment(P, r, n)` initially and the line-155 recalculation afterwards.
If the overpayment is strictly positive and the period leaves a positive
balance `b2 = b - (installment + ov - interest)` (so the recalculation guard
`remaining > 0 and balance > 0` passes and no final-month cap fired), then
the recalculated installment `annuityF b2 r m` is strictly smaller than the
installment in effect. -/
theorem claim_C5_installment_strict_decrease (r ov b : ℚ) (m : ℕ)
    (hr : 0 ≤ r) (hov : 0 < ov) (hb : 0 < b) (hm : 1 ≤ m)
    (hb2 : 0 < b - (annuityF b r (m + 1) + ov - b * r)) :
    annuityF (b - (annuityF b r (m + 1) + ov - b * r)) r m < annuityF b r (m + 1) := by
  have hlt : b - (annuityF b r (m + 1) + ov - b * r)
      < b - (annuityF b r (m + 1) - b * r) := by linarith
  calc annuityF (b - (annuityF b r (m + 1) + ov - b * r)) r m
      < annuityF (b - (annuityF b r (m + 1) - b * r)) r m := annuityF_lt_of_lt hr hlt hm
    _ = annuityF b r (m + 1) := annuityF_step hr b hm

/-- Witness for C5 at rate 0, overpayment 10, balance 100, remaining term 2. -/
theorem claim_C5_witness :
    (0 : ℚ) ≤ 0 ∧ (0 : ℚ) < 10 ∧ (0 : ℚ) < 100 ∧ 1 ≤ 1 ∧
    (0 : ℚ) < 100 - (annuityF 100 0 (1 + 1) + 10 - 100 * 0) ∧
    annuityF (100 - (annuityF 100 0 (1 + 1) + 10 - 100 * 0)) 0 1 < annuityF 100 0 (1 + 1) := by
  have h1 : (0 : ℚ) ≤ 0 := le_refl 0
  have h2 : (0 : ℚ) < 10 := by norm_num
  have h3 : (0 : ℚ) < 100 := by norm_num
  have h4 : 1 ≤ 1 := le_refl 1
  have h5 : (0 : ℚ) < 100 - (annuityF 100 0 (1 + 1) + 10 - 100 * 0) := by
    norm_num [annuityF]
  exact ⟨h1, h2, h3, h4, h5,
    claim_C5_installment_strict_decrease 0 10 100 1 h1 h2 h3 h4 h5⟩

/-! ### Strategy dominance -/

theorem dominanceAux (r ov A : ℚ) (hr : 0 ≤ r) (hov : 0 ≤ ov) :
    ∀ (m : ℕ) (S R I pay : ℚ) (month : ℕ),
      0 ≤ S → S ≤ R → I ≤ A → (0 < S → pay = A + ov) →
      (0 < R → 1 ≤ m → I = annuityF R r m) →
      (shortenGo r A pay S month m).months ≤ (reduceGo r ov I R month m).months ∧
      (shortenGo r A pay S month m).total_interest
        ≤ (reduceGo r ov I R month m).total_interest := by
  intro m
  induction m with
  | zero => intro S R I pay month _ _ _ _ _; exact ⟨le_refl _, le_refl _⟩
  | succ m ih =>
    intro S R I pay month hS0 hSR hIA hpay hinv
    by_cases hS : S > 0
    · have hR : R > 0 := lt_of_lt_of_le hS hSR
      have hpayEq : pay = A + ov := hpay hS
      have hIinv : I = annuityF R r (m + 1) := hinv hR (by omega)
      have hrr : S * r ≤ R * r := mul_le_mul_of_nonneg_right hSR hr
      subst hpayEq
      by_cases hcR : I + ov - R * r > R
      · have hcS : A + ov - S * r > S := by linarith
        simp only [shortenGo, reduceGo, if_pos hS, if_pos hR, if_pos hcS, if_pos hcR]
        have hf : ¬ (m > 0 ∧ R - R > 0) := by
          intro h
          linarith [h.2]
        rw [if_neg hf]
        obtain ⟨ih1, ih2⟩ := ih (S - S) (R - R) I (S + S * r) (month + 1)
          (by linarith) (by linarith) hIA (by intro h; linarith)
          (by intro h _; linarith)
        exact ⟨ih1, by linarith⟩
      · have hR2 : 0 ≤ R - (I + ov - R * r) := by linarith [not_lt.mp hcR]
        by_cases hg : m > 0 ∧ R - (I + ov - R * r) > 0
        · -- the installment is recalculated for the next period
          have hmono : annuityF (R - (I + ov - R * r)) r m
              ≤ annuityF (R - (I - R * r)) r m :=
            annuityF_le_of_le hr (by linarith) hg.1
          have hstep : annuityF (R - (I - R * r)) r m = I := by
            rw [hIinv]
            exact annuityF_step hr R hg.1
          have hI2A : annuityF (R - (I + ov - R * r)) r m ≤ A :=
            le_trans (le_trans hmono (le_of_eq hstep)) hIA
          by_cases hcS : A + ov - S * r > S
          · simp only [shortenGo, reduceGo, if_pos hS, if_pos hR, if_pos hcS, if_neg hcR]
            rw [if_pos hg]
            obtain ⟨ih1, ih2⟩ := ih (S - S) (R - (I + ov - R * r))
              (annuityF (R - (I + ov - R * r)) r m) (S + S * r) (month + 1)
              (by linarith) (by linarith) hI2A (by intro h; linarith)
              (by intro _ _; rfl)
            exact ⟨ih1, by linarith⟩
          · simp only [shortenGo, reduceGo, if_pos hS, if_pos hR, if_neg hcS, if_neg hcR]
            rw [if_pos hg]
            obtain ⟨ih1, ih2⟩ := ih (S - (A + ov - S * r)) (R - (I + ov - R * r))
              (annuityF (R - (I + ov - R * r)) r m) (A + ov) (month + 1)
              (by linarith [not_lt.mp hcS]) (by linarith) hI2A (by intro _; rfl)
              (by intro _ _; rfl)
            exact ⟨ih1, by linarith⟩
        · -- no recalculation: the installment carries over unchanged
          have hinv2 : 0 < R - (I + ov - R * r) → 1 ≤ m
              → I = annuityF (R - (I + ov - R * r)) r m := by
            intro h1 h2
            exact absurd ⟨by omega, h1⟩ hg
          by_cases hcS : A + ov - S * r > S
          · simp only [shortenGo, reduceGo, if_pos hS, if_pos hR, if_pos hcS, if_neg hcR]
            rw [if_neg hg]
            obtain ⟨ih1, ih2⟩ := ih (S - S) (R - (I + ov - R * r)) I (S + S * r) (month + 1)
              (by linarith) (by linarith) hIA (by intro h; linarith) hinv2
            exact ⟨ih1, by linarith⟩
          · simp only [shortenGo, reduceGo, if_pos hS, if_pos hR, if_neg hcS, if_neg hcR]
            rw [if_neg hg]
            obtain ⟨ih1, ih2⟩ := ih (S - (A + ov - S * r)) (R - (I + ov - R * r)) I
              (A + ov) (month + 1)
              (by linarith [not_lt.mp hcS]) (by linarith) hIA (by intro _; rfl) hinv2
            exact ⟨ih1, by linarith⟩
    · simp only [shortenGo, if_neg hS]
      exact ⟨reduceGo_months_ge r ov (m + 1) I R month,
        reduceGo_interest_nonneg hr ov (m + 1) I R month⟩

/-- C2: for equal overpayment (with `base_payment = annuity_payment(principal,
rate, n)`, `principal > 0`, `rate ≥ 0`, `overpayment ≥ 0`, `n ≥ 1`), the
shorten-term strategy finishes in at most as many months as the
reduce-payment strategy and accrues at most as much total interest. -/
theorem claim_C2_shorten_dominates (P r ov : ℚ) (n : ℕ)
    (hP : 0 < P) (hr : 0 ≤ r) (hov : 0 ≤ ov) (hn : 1 ≤ n) :
    (calculate_shorten_term P r (annuityF P r n) ov n).months
      ≤ (calculate_reduce_payment P r (annuityF P r n) ov n).months ∧
    (calculate_shorten_term P r (annuityF P r n) ov n).total_interest
      ≤ (calculate_reduce_payment P r (annuityF P r n) ov n).total_interest := by
  rw [calculate_shorten_term, calculate_reduce_payment]
  exact dominanceAux r ov (annuityF P r n) hr hov n P P (annuityF P r n)
    (annuityF P r n + ov) 0 hP.le (le_refl P) (le_refl _) (fun _ => rfl)
    (fun _ _ => rfl)

/-- Witness for C2 at principal 100, rate 0, overpayment 10, term 2. -/
theorem claim_C2_witness :
    (0 : ℚ) < 100 ∧ (0 : ℚ) ≤ 0 ∧ (0 : ℚ) ≤ 10 ∧ 1 ≤ 2 ∧
    ((calculate_shorten_term 100 0 (annuityF 100 0 2) 10 2).months
        ≤ (calculate_reduce_payment 100 0 (annuityF 100 0 2) 10 2).months ∧
      (calculate_shorten_term 100 0 (annuityF 100 0 2) 10 2).total_interest
        ≤ (calculate_reduce_payment 100 0 (annuityF 100 0 2) 10 2).total_interest) := by
  have h1 : (0 : ℚ) < 100 := by norm_num
  have h2 : (0 : ℚ) ≤ 0 := le_refl 0
  have h3 : (0 : ℚ) ≤ 10 := by norm_num
  have h4 : 1 ≤ 2 := by omega
  exact ⟨h1, h2, h3, h4, claim_C2_shorten_dominates 100 0 10 2 h1 h2 h3 h4⟩

-- sanity checks on concrete inputs (rate 0 and rate 1)
example : annuityF 100 0 2 = 50 := by norm_num [annuityF]
example : annuityF 100 1 1 = 200 := by norm_num [annuityF]
example : (calculate_shorten_term 100 0 50 10 2).months = 2 := by
  norm_num [calculate_shorten_term, shortenGo]
example : (calculate_shorten_term 100 0 50 10 2).schedule.map MonthlyEntry.balance = [40, 0] := by
  norm_num [calculate_shorten_term, shortenGo]
example : (calculate_reduce_payment 100 0 50 10 2).months = 2 := by
  norm_num [calculate_reduce_payment, reduceGo, annuityF]
example : (calculate_reduce_payment 100 0 50 10 2).schedule.map MonthlyEntry.overpayment
    = [10, 0] := by
  norm_num [calculate_reduce_payment, reduceGo, annuityF]
example : calculate_baseline_interest 100 1 200 1 = 100 := by
  norm_num [calculate_baseline_interest, baselineGo]

end Mortgage
